import Mathlib

/-!
Verification development for the header-warden analysis core.

Shallow embedding of the single-file analysis engine:
  - src/core/string.cpp : to_lower, strip_whitespace, remove_comment,
    create_cpp_reference_link
  - src/modules/analyze.cpp : begins_with_comment, the include-directive and
    std-identifier regular expressions, and the CodeParser constructor
    (classification pass plus the two reconciliation passes)
  - src/core/io.cpp : read_lines (modelled over an association-list file system)
  - src/app.cpp : the sequential branch of the multi-file driver app::run

Strings are modelled as lists of characters; machine strings are byte
sequences and all relevant characters are ASCII.
-/

/-- Strings of the embedded program: lists of characters. -/
abbrev Str := List Char

/-- Whitespace test matching std::isspace in the C locale and the ECMAScript
class used by the directive regular expression (restricted to ASCII):
space, tab, newline, vertical tab, form feed, carriage return. -/
def isSpaceChar (c : Char) : Bool :=
  c == ' ' || c == '\t' || c == '\n' || c == '\x0B' || c == '\x0C' || c == '\r'

/-- Word-character test for the ECMAScript character class used by the
std-identifier regular expression: letters, digits, underscore. -/
def isWordChar (c : Char) : Bool :=
  (decide ('a' ≤ c) && decide (c ≤ 'z')) ||
  (decide ('A' ≤ c) && decide (c ≤ 'Z')) ||
  (decide ('0' ≤ c) && decide (c ≤ '9')) || c == '_'

/-- One character of core::string::to_lower: std::tolower in the C locale maps
ASCII capitals to small letters and leaves every other byte unchanged. -/
def toLowerChar (c : Char) : Char :=
  if 'A' ≤ c ∧ c ≤ 'Z' then Char.ofNat (c.toNat + 32) else c

/-- core::string::to_lower (string.cpp, lines 35-41): lowercase every
character. -/
def to_lower (s : Str) : Str := s.map toLowerChar

/-- core::string::strip_whitespace (string.cpp, lines 43-56): drop leading and
trailing whitespace; an all-whitespace string becomes empty. -/
def strip_whitespace (s : Str) : Str :=
  ((s.dropWhile isSpaceChar).reverse.dropWhile isSpaceChar).reverse

/-- core::string::remove_comment (string.cpp, lines 58-65): erase everything
from the first occurrence of the two-character sequence of slashes onward. -/
def remove_comment : Str → Str
  | [] => []
  | '/' :: '/' :: _ => []
  | c :: rest => c :: remove_comment rest

/-- Boolean test that a string starts with a given pattern (the semantics of
std::string::compare with position 0 and the pattern length). -/
def begins_with : Str → Str → Bool
  | [], _ => true
  | _ :: _, [] => false
  | p :: ps, c :: cs => p == c && begins_with ps cs

/-- modules::analyze begins_with_comment (analyze.cpp, lines 30-41): the line
starts with two slashes, with slash-star, or its first character is a star. -/
def begins_with_comment (line : Str) : Bool :=
  begins_with "//".toList line ||
  begins_with "/*".toList line ||
  (match line with
   | '*' :: _ => true
   | _ => false)

/-- URL-encoding table of core::string::create_cpp_reference_link
(string.cpp, lines 72-92), as a partial character-to-string map. -/
def url_encoding (c : Char) : Option Str :=
  if c == ' ' then some "%20".toList
  else if c == '!' then some "%21".toList
  else if c == '#' then some "%23".toList
  else if c == '$' then some "%24".toList
  else if c == '&' then some "%26".toList
  else if c == '\x27' then some "%27".toList
  else if c == '(' then some "%28".toList
  else if c == ')' then some "%29".toList
  else if c == '*' then some "%2A".toList
  else if c == '+' then some "%2B".toList
  else if c == ',' then some "%2C".toList
  else if c == '/' then some "%2F".toList
  else if c == ':' then some "%3A".toList
  else if c == ';' then some "%3B".toList
  else if c == '=' then some "%3D".toList
  else if c == '?' then some "%3F".toList
  else if c == '@' then some "%40".toList
  else if c == '[' then some "%5B".toList
  else if c == ']' then some "%5D".toList
  else none

/-- core::string::create_cpp_reference_link (string.cpp, lines 67-117):
base URL, then each character either replaced by its table entry or passed
through, then the fixed suffix.  The character loop is the stream-insertion
loop of the source, written as a left fold over the name. -/
def create_cpp_reference_link (name : Str) : Str :=
  (name.foldl
    (fun acc c =>
      match url_encoding c with
      | some enc => acc ++ enc
      | none => acc ++ [c])
    "https://duckduckgo.com/?sites=cppreference.com&q=".toList)
  ++ "&ia=web".toList

/-- Index just past the last occurrence of the closing angle bracket in a
list, when any exists. -/
def lastCloseIdx (run : Str) : Option Nat :=
  match run.reverse.findIdx? (fun c => c == '>') with
  | some k => some (run.length - 1 - k)
  | none => none

/-- Match of the include-directive regular expression (analyze.cpp, line 48)
against the whole processed line, returning the matched substring.
The pattern is: start anchor, any whitespace, the literal include keyword,
any whitespace, an opening angle bracket, one or more non-whitespace
characters, a closing angle bracket.  With ECMAScript search semantics the
start anchor restricts matches to position 0, and the greedy one-or-more
repetition makes the match end at the last closing angle bracket inside the
maximal non-whitespace run that follows the opening bracket, provided at
least one character separates the two brackets. -/
def matchDirective (s : Str) : Option Str :=
  if begins_with "#include".toList (s.dropWhile isSpaceChar) then
    match ((s.dropWhile isSpaceChar).drop 8).dropWhile isSpaceChar with
    | [] => none
    | c :: rest =>
      if c = '<' then
        match lastCloseIdx (rest.takeWhile (fun x => !isSpaceChar x)) with
        | some j =>
          if 1 ≤ j then
            some (s.takeWhile isSpaceChar ++ "#include".toList ++
                  ((s.dropWhile isSpaceChar).drop 8).takeWhile isSpaceChar ++
                  c :: (rest.takeWhile (fun x => !isSpaceChar x)).take (j + 1))
          else none
        | none => none
      else none
  else none

/-- One step of the std-identifier scan: if the string starts with the
five-character std-qualifier literal followed by at least one word character,
return the matched identifier (qualifier plus maximal word-character run)
and the remainder of the string after the match. -/
def matchStdAt (s : Str) : Option (Str × Str) :=
  if begins_with "std::".toList s then
    if ((s.drop 5).takeWhile isWordChar).isEmpty then none
    else some ("std::".toList ++ (s.drop 5).takeWhile isWordChar,
               s.drop (5 + ((s.drop 5).takeWhile isWordChar).length))
  else none

/-- Fuelled scan for all non-overlapping matches of the std-identifier
regular expression (analyze.cpp, line 50), left to right, each continuation
starting after the previous match, exactly as std::sregex_iterator does.
The fuel only serves structural recursion; it never runs out when it starts
at the length of the string. -/
def scanStdAux : Nat → Str → List Str
  | 0, _ => []
  | _, [] => []
  | fuel + 1, c :: rest =>
    match matchStdAt (c :: rest) with
    | some (m, r) => m :: scanStdAux fuel r
    | none => scanStdAux fuel rest

/-- All matches of the std-identifier regular expression in a line, in order
(analyze.cpp, lines 88-92). -/
def scanStd (s : Str) : List Str := scanStdAux s.length s

/-- core::io::Line (io.hpp): a line number paired with the raw line text. -/
structure Line where
  number : Nat
  text : Str
deriving DecidableEq, Repr

/-- modules::analyze::BareInclude (analyze.hpp): an include directive without
listed functions; the header field stores the extracted directive text. -/
structure BareInclude where
  number : Nat
  text : Str
  header : Str
deriving DecidableEq, Repr

/-- modules::analyze::IncludeWithUnusedFunctions (analyze.hpp): an include
directive together with the std identifiers listed in its comment. -/
structure IncludeWithUnusedFunctions where
  number : Nat
  text : Str
  unused_functions : List Str
deriving DecidableEq, Repr

/-- modules::analyze::UnlistedFunction (analyze.hpp): one occurrence of a std
identifier together with its reference link (empty while temporary). -/
structure UnlistedFunction where
  number : Nat
  text : Str
  function : Str
  link : Str
deriving DecidableEq, Repr

/-- Classification of one raw line by the loop body of the CodeParser
constructor (analyze.cpp, lines 57-115). -/
inductive LineResult where
  | ignored
  | bare (directive : Str)
  | annotated (syms : List Str)
  | usage (syms : List Str)
deriving DecidableEq, Repr

/-- The loop body of the CodeParser constructor for one line (analyze.cpp,
lines 57-115): skip empty raw lines, strip and lowercase, skip comment lines,
search for the include directive, remove the inline comment only when no
directive matched, scan for std identifiers, then categorize. -/
def processLine (raw : Str) : LineResult :=
  if raw.isEmpty then .ignored
  else
    if begins_with_comment (to_lower (strip_whitespace raw)) then .ignored
    else
      match matchDirective (to_lower (strip_whitespace raw)) with
      | some directive =>
        if (scanStd (to_lower (strip_whitespace raw))).isEmpty then
          .bare directive
        else .annotated (scanStd (to_lower (strip_whitespace raw)))
      | none =>
        if (scanStd (remove_comment (to_lower (strip_whitespace raw)))).isEmpty
        then .ignored
        else .usage (scanStd (remove_comment (to_lower (strip_whitespace raw))))

/-- The three containers filled by the classification loop of the CodeParser
constructor: bare includes, annotated includes (temporary), and std-identifier
occurrences (temporary, links still empty). -/
structure ScanAcc where
  bare : List BareInclude
  annotated : List IncludeWithUnusedFunctions
  usages : List UnlistedFunction
deriving DecidableEq, Repr

/-- The classification loop of the CodeParser constructor over a list of
numbered lines (analyze.cpp, lines 57-115), producing the containers in
forward scan order. -/
def scanFile : List Line → ScanAcc
  | [] => ⟨[], [], []⟩
  | l :: rest =>
    match processLine l.text with
    | .ignored => scanFile rest
    | .bare d =>
      ⟨⟨l.number, l.text, d⟩ :: (scanFile rest).bare,
       (scanFile rest).annotated, (scanFile rest).usages⟩
    | .annotated syms =>
      ⟨(scanFile rest).bare,
       ⟨l.number, l.text, syms⟩ :: (scanFile rest).annotated,
       (scanFile rest).usages⟩
    | .usage syms =>
      ⟨(scanFile rest).bare, (scanFile rest).annotated,
       (syms.map fun f => ⟨l.number, l.text, f, []⟩) ++ (scanFile rest).usages⟩

/-- Line numbering of core::io::read_lines (io.cpp, lines 59-67): consecutive
numbers assigned in read order. -/
def numberLines : Nat → List Str → List Line
  | _, [] => []
  | n, t :: rest => ⟨n, t⟩ :: numberLines (n + 1) rest

/-- The bare includes produced by the classification pass on a file given as
its list of raw lines. -/
def bareOf (content : List Str) : List BareInclude :=
  (scanFile (numberLines 1 content)).bare

/-- The annotated inclusions (include directives with listed symbols)
produced by the classification pass. -/
def annotatedOf (content : List Str) : List IncludeWithUnusedFunctions :=
  (scanFile (numberLines 1 content)).annotated

/-- The std-identifier occurrences produced by the classification pass, one
record per occurrence, in forward scan order. -/
def usagesOf (content : List Str) : List UnlistedFunction :=
  (scanFile (numberLines 1 content)).usages

/-- The set of std identifiers used anywhere in the code (analyze.cpp,
lines 118-122), as the list of occurrence symbols; only membership matters. -/
def usedSetOf (content : List Str) : List Str :=
  (usagesOf content).map UnlistedFunction.function

/-- The set of symbols listed in any include directive's comment
(analyze.cpp, lines 145-149); only membership matters. -/
def listedSetOf (content : List Str) : List Str :=
  (annotatedOf content).flatMap IncludeWithUnusedFunctions.unused_functions

/-- The results of the CodeParser constructor (analyze.cpp, lines 45-160):
bare includes from the scan, then the over-listed pass (lines 117-142), then
the under-listed pass (lines 144-159). -/
structure ParseResult where
  bare_includes : List BareInclude
  unused_functions : List IncludeWithUnusedFunctions
  unlisted_functions : List UnlistedFunction
deriving DecidableEq, Repr

/-- The full CodeParser pipeline on a loaded file.  The over-listed pass
keeps, for each annotated inclusion in order, the listed symbols not used
anywhere, emitting a finding only when some remain; the under-listed pass
emits, for each usage occurrence in order whose symbol is listed nowhere, a
finding with a freshly computed reference link. -/
def codeParser (content : List Str) : ParseResult where
  bare_includes := bareOf content
  unused_functions :=
    (annotatedOf content).filterMap fun inc =>
      if (inc.unused_functions.filter fun f =>
            decide (f ∉ usedSetOf content)).isEmpty then none
      else some ⟨inc.number, inc.text,
                 inc.unused_functions.filter fun f =>
                   decide (f ∉ usedSetOf content)⟩
  unlisted_functions :=
    (usagesOf content).filterMap fun e =>
      if e.function ∈ listedSetOf content then none
      else some ⟨e.number, e.text, e.function,
                 create_cpp_reference_link e.function⟩

/-- A file system for the embedding: an association list from paths to file
contents (list of raw lines).  A path absent from the list stands for any
path that cannot be opened for reading: missing, a directory, or without
read permission. -/
abbrev FileSystem := List (Str × List Str)

/-- core::io::read_lines (io.cpp, lines 43-76) over the modelled file system:
numbered lines on success, and on failure the runtime error whose message
names the offending file (the fmt message of line 74, quoting elided). -/
def read_lines (fs : FileSystem) (p : Str) : Except Str (List Line) :=
  match fs.lookup p with
  | some content => .ok (numberLines 1 content)
  | none =>
    .error ("Error loading file ".toList ++ p ++
            ": Failed to open file for reading".toList)

/-- The file-analysis facade: the CodeParser constructor including its call
to read_lines (analyze.cpp, line 57).  An input error propagates unchanged;
a loaded file always yields a full result. -/
def codeParserOf (fs : FileSystem) (p : Str) : Except Str ParseResult :=
  match fs.lookup p with
  | some content => .ok (codeParser content)
  | none =>
    .error ("Error loading file ".toList ++ p ++
            ": Failed to open file for reading".toList)

/-- The enablement flags read by app::run (app.cpp); the multithreading flag
selects between the sequential and the parallel branch. -/
structure Enable where
  bare : Bool
  unused : Bool
  unlisted : Bool
  multithreading : Bool

/-- The arguments consumed by app::run (app.cpp, lines 19-24). -/
structure Args where
  filepaths : List Str
  enable : Enable

/-- The sequential branch of app::run (app.cpp, lines 108-114), taken when
fewer than two files are queued or multithreading is disabled: process_file
is applied to each path in order, and, since process_file catches nothing,
the first exception propagates out of the loop, abandoning the remaining
paths.  The parallel branch (a thread pool) is not modelled. -/
def process_all_sequential (fs : FileSystem) :
    List Str → Except Str (List ParseResult)
  | [] => .ok []
  | p :: rest =>
    match codeParserOf fs p with
    | .error e => .error e
    | .ok r =>
      match process_all_sequential fs rest with
      | .error e => .error e
      | .ok rs => .ok (r :: rs)

/-- Whether app::run takes the sequential branch (app.cpp, line 108). -/
def takesSequentialBranch (args : Args) : Bool :=
  decide (args.filepaths.length < 2) || !args.enable.multithreading

example : scanStd "std::chrono::seconds".toList = ["std::chrono".toList] := by decide
example : scanStd "std::cout << std::endl".toList
    = ["std::cout".toList, "std::endl".toList] := by decide
example : matchDirective "#include <iostream>".toList
    = some "#include <iostream>".toList := by decide
example : matchDirective "int x; #include <iostream>".toList = none := by decide
example : matchDirective "#include <foo> int x;".toList
    = some "#include <foo>".toList := by decide
example : strip_whitespace "  a b ".toList = "a b".toList := by decide
example : remove_comment "int x = 5; // use std::cout".toList
    = "int x = 5; ".toList := by decide

/-- Shape invariant of stored symbols: a five-character std qualifier
followed by at least one word character, none of which is a colon. -/
def symShape (s : Str) : Prop :=
  s.take 5 = "std::".toList ∧ 5 < s.length ∧
    (∀ c ∈ s.drop 5, isWordChar c = true) ∧ ∀ c ∈ s.drop 5, c ≠ ':'

/-- The reference-link builder as the specification words it: the fixed base
URL, followed by the input with each character either replaced by its fixed
table entry or passed through unchanged, followed by the fixed suffix.  This
definition is compared with create_cpp_reference_link, which embeds the
stream-insertion loop of the source. -/
def reference_link_spec (symbol : Str) : Str :=
  "https://duckduckgo.com/?sites=cppreference.com&q=".toList ++
  (symbol.flatMap fun c => (url_encoding c).getD [c]) ++
  "&ia=web".toList

/-! Concrete data used by the per-claim witnesses and counterexamples. -/

/-- Example file line: an annotated inclusion listing two symbols. -/
def c1_line1 : Str := "#include <algorithm>  // for std::sort, std::find".toList

/-- Example file line: a use of one of the listed symbols. -/
def c1_line2 : Str := "std::sort(v.begin(), v.end());".toList

/-- Example file for the over-listed pass. -/
def c1_file : List Str := [c1_line1, c1_line2]

/-- The over-listed finding the example file produces. -/
def c1_finding : IncludeWithUnusedFunctions :=
  ⟨1, c1_line1, ["std::find".toList]⟩

/-- Example file with two occurrences of one unlisted symbol. -/
def c2_file : List Str :=
  ["std::cout << 1;".toList, "std::cout << 2;".toList]

/-- Example directive line whose comment names a symbol. -/
def c3_raw : Str := "#include <iostream> // for std::cout".toList

/-- Example line with code text before a directive-like fragment. -/
def c4_line : Str := "int x; #include <iostream>".toList

/-- The directive-like fragment embedded in the example line. -/
def c4_frag : Str := "#include <iostream>".toList

/-- Example line with a directive followed by trailing code text. -/
def c4_s : Str := "#include <foo> int x;".toList

/-- The directive substring matched inside the trailing-text line. -/
def c4_d : Str := "#include <foo>".toList

/-- Example file for the ordering and traceability claim. -/
def c5_file : List Str :=
  ["#include <string>".toList,
   "#include <algorithm>  // for std::find".toList,
   "std::cout << 1; std::endl;".toList]

/-- The over-listed finding of the ordering example file. -/
def c5_finding : IncludeWithUnusedFunctions :=
  ⟨2, "#include <algorithm>  // for std::find".toList, ["std::find".toList]⟩

/-- Path of the readable file in the driver example. -/
def c6_good : Str := "good.cpp".toList

/-- Path of the unreadable file in the driver example. -/
def c6_missing : Str := "missing.cpp".toList

/-- Content of the readable file in the driver example. -/
def c6_content : List Str := ["#include <iostream>".toList]

/-- File system of the driver example: only the good path is readable. -/
def c6_fs : FileSystem := [(c6_good, c6_content)]

/-- Driver arguments: both paths queued, multithreading disabled, so the
sequential branch is taken. -/
def c6_args : Args := ⟨[c6_missing, c6_good], ⟨true, true, true, false⟩⟩

/-- Path of the readable file in the facade example. -/
def c7_good : Str := "main.cpp".toList

/-- Path absent from the file system in the facade example. -/
def c7_missing : Str := "nope.cpp".toList

/-- Content of the readable file in the facade example. -/
def c7_content : List Str := ["std::string name;".toList]

/-- File system of the facade example. -/
def c7_fs : FileSystem := [(c7_good, c7_content)]

/-- Example file using a nested qualified reference. -/
def c9_file : List Str := ["std::chrono::seconds t;".toList]

/-- The truncated symbol stored for the nested qualified reference. -/
def c9_sym : Str := "std::chrono".toList

/-- The under-listed finding the nested-reference file produces. -/
def c9_finding : UnlistedFunction :=
  ⟨1, "std::chrono::seconds t;".toList, c9_sym,
   create_cpp_reference_link c9_sym⟩

/-- A raw line consisting only of whitespace characters. -/
def c10_raw : Str := "   ".toList

/-! ### Helper lemmas about the embedded string primitives -/

/-- A successful begins_with test exhibits the string as pattern plus tail. -/
theorem begins_with_exists {p s : Str} (h : begins_with p s = true) :
    ∃ t, s = p ++ t := by
  induction p generalizing s with
  | nil => exact ⟨s, rfl⟩
  | cons a ps ih =>
    cases s with
    | nil => simp [begins_with] at h
    | cons c cs =>
      simp only [begins_with, Bool.and_eq_true, beq_iff_eq] at h
      obtain ⟨t, ht⟩ := ih h.2
      exact ⟨t, by simp [h.1, ht]⟩

/-- Unfolding of remove_comment past a head character that is not part of a
two-slash pair because it is not a slash. -/
theorem remove_comment_cons_of_ne {c : Char} (rest : Str) (h : c ≠ '/') :
    remove_comment (c :: rest) = c :: remove_comment rest :=
  remove_comment.eq_3 c rest (fun _ hc _ => h hc)

/-- Unfolding of remove_comment past a head slash that is not followed by a
second slash. -/
theorem remove_comment_cons_slash {d : Char} (rest : Str) (h : d ≠ '/') :
    remove_comment ('/' :: d :: rest) = '/' :: remove_comment (d :: rest) :=
  remove_comment.eq_3 '/' (d :: rest)
    (by intro _ _ hr; injection hr with h1 _; exact h h1)

/-- remove_comment keeps a lone trailing slash. -/
theorem remove_comment_single_slash :
    remove_comment ['/'] = ['/'] :=
  remove_comment.eq_3 '/' [] (fun _ _ hr => by simp at hr)

/-- remove_comment returns a prefix of its input, and what it removes is
either nothing or a suffix that starts with two slashes. -/
theorem remove_comment_decomp (s : Str) :
    ∃ t, s = remove_comment s ++ t ∧
      (t = [] ∨ ∃ b, t = '/' :: '/' :: b) := by
  induction s using remove_comment.induct with
  | case1 =>
    exact ⟨[], by simp [remove_comment.eq_1]⟩
  | case2 b =>
    exact ⟨'/' :: '/' :: b, by simp [remove_comment.eq_2], Or.inr ⟨b, rfl⟩⟩
  | case3 c rest hne ih =>
    obtain ⟨t, ht, hcase⟩ := ih
    refine ⟨t, ?_, hcase⟩
    rw [remove_comment.eq_3 c rest hne, List.cons_append, ← ht]

/-- The part kept by remove_comment lies strictly before the first occurrence
of the two-slash sequence: no split of it exposes one. -/
theorem remove_comment_no_comment (s : Str) :
    ∀ x b, remove_comment s ≠ x ++ '/' :: '/' :: b := by
  induction s using remove_comment.induct with
  | case1 =>
    intro x b h
    simp [remove_comment.eq_1] at h
  | case2 tail =>
    intro x b h
    simp [remove_comment.eq_2] at h
  | case3 c rest hne ih =>
    intro x b h
    rw [remove_comment.eq_3 c rest hne] at h
    cases x with
    | nil =>
      simp only [List.nil_append, List.cons.injEq] at h
      obtain ⟨hc, hrest⟩ := h
      subst hc
      cases rest with
      | nil => simp [remove_comment.eq_1] at hrest
      | cons d rest2 =>
        have hd : d ≠ '/' := fun hdeq => hne rest2 rfl (by rw [hdeq])
        rw [remove_comment_cons_of_ne rest2 hd] at hrest
        simp only [List.cons.injEq] at hrest
        exact hd hrest.1
    | cons y ys =>
      simp only [List.cons_append, List.cons.injEq] at h
      exact ih ys b h.2

/-- Characterization of a successful single std-identifier match. -/
theorem matchStdAt_some {s m r : Str} (h : matchStdAt s = some (m, r)) :
    ∃ w, w ≠ [] ∧ (∀ c ∈ w, isWordChar c = true) ∧
      m = "std::".toList ++ w ∧ r = s.drop (5 + w.length) := by
  unfold matchStdAt at h
  split at h
  case isTrue hpre =>
    split at h
    case isTrue => exact absurd h (by simp)
    case isFalse hw =>
      simp only [Option.some.injEq, Prod.mk.injEq] at h
      refine ⟨(s.drop 5).takeWhile isWordChar, by simpa using hw, ?_,
        h.1.symm, h.2.symm⟩
      intro c hc
      exact List.mem_takeWhile_imp hc
  case isFalse => exact absurd h (by simp)

/-- Word characters are never colons. -/
theorem wordChar_ne_colon {c : Char} (h : isWordChar c = true) : c ≠ ':' := by
  intro hc
  subst hc
  simp [isWordChar] at h

/-- Any string of the matched form satisfies the shape invariant. -/
theorem symShape_of {w : Str} (hne : w ≠ [])
    (hw : ∀ c ∈ w, isWordChar c = true) :
    symShape ("std::".toList ++ w) := by
  have h5 : ("std::".toList : Str).length = 5 := by decide
  refine ⟨?_, ?_, ?_, ?_⟩
  · rw [show (5 : Nat) = ("std::".toList : Str).length from h5.symm]
    simp
  · have : 0 < w.length := List.length_pos.mpr hne
    simp only [List.length_append, h5]
    omega
  · intro c hc
    rw [show (5 : Nat) = ("std::".toList : Str).length from h5.symm] at hc
    simp only [List.drop_left] at hc
    exact hw c hc
  · intro c hc
    rw [show (5 : Nat) = ("std::".toList : Str).length from h5.symm] at hc
    simp only [List.drop_left] at hc
    exact wordChar_ne_colon (hw c hc)

/-- Every identifier produced by the fuelled scan satisfies the shape
invariant. -/
theorem scanStdAux_shape :
    ∀ (fuel : Nat) (s : Str), ∀ m ∈ scanStdAux fuel s, symShape m := by
  intro fuel
  induction fuel with
  | zero => intro s m hm; simp [scanStdAux] at hm
  | succ n ih =>
    intro s m hm
    cases s with
    | nil => simp [scanStdAux] at hm
    | cons c rest =>
      rw [scanStdAux] at hm
      cases hmt : matchStdAt (c :: rest) with
      | none =>
        rw [hmt] at hm
        exact ih rest m hm
      | some pr =>
        rw [hmt] at hm
        obtain ⟨m0, r⟩ := pr
        simp only [List.mem_cons] at hm
        cases hm with
        | inl heq =>
          obtain ⟨w, hne, hw, hform, _⟩ := matchStdAt_some hmt
          subst heq
          rw [hform]
          exact symShape_of hne hw
        | inr hmem => exact ih r m hmem

/-- Every identifier produced by the std-identifier scan satisfies the shape
invariant. -/
theorem scanStd_shape (s : Str) : ∀ m ∈ scanStd s, symShape m :=
  scanStdAux_shape s.length s

/-! ### Helper lemmas about line numbering and the classification scan -/

/-- Numbers assigned by numberLines are at least the starting number. -/
theorem mem_numberLines_ge {l : Line} :
    ∀ {n : Nat} {c : List Str}, l ∈ numberLines n c → n ≤ l.number := by
  intro n c
  induction c generalizing n with
  | nil => intro h; simp [numberLines] at h
  | cons t rest ih =>
    intro h
    simp only [numberLines, List.mem_cons] at h
    cases h with
    | inl heq => simp [heq]
    | inr hmem => exact Nat.le_of_succ_le (ih hmem)

/-- The numbers assigned by numberLines are ascending. -/
theorem numberLines_pairwise (n : Nat) (c : List Str) :
    ((numberLines n c).map Line.number).Pairwise (· ≤ ·) := by
  induction c generalizing n with
  | nil => simp [numberLines]
  | cons t rest ih =>
    simp only [numberLines, List.map_cons]
    refine List.Pairwise.cons ?_ (ih (n + 1))
    intro m hm
    obtain ⟨l, hl, hnum⟩ := List.mem_map.mp hm
    subst hnum
    exact Nat.le_of_succ_le (mem_numberLines_ge hl)

/-- A line classified as annotated carries exactly the identifiers scanned in
the full processed line (no inline-comment stripping). -/
theorem processLine_annotated_inv {raw : Str} {syms : List Str}
    (h : processLine raw = .annotated syms) :
    syms = scanStd (to_lower (strip_whitespace raw)) ∧ syms ≠ [] := by
  unfold processLine at h
  split at h
  · exact absurd h (by simp)
  · split at h
    · exact absurd h (by simp)
    · split at h
      · split at h
        · exact absurd h (by simp)
        · rename_i hne
          simp only [LineResult.annotated.injEq] at h
          subst h
          exact ⟨rfl, by simpa using hne⟩
      · split at h
        · exact absurd h (by simp)
        · exact absurd h (by simp)

/-- A line classified as usage carries exactly the identifiers scanned after
inline-comment stripping. -/
theorem processLine_usage_inv {raw : Str} {syms : List Str}
    (h : processLine raw = .usage syms) :
    syms = scanStd (remove_comment (to_lower (strip_whitespace raw))) ∧
      syms ≠ [] := by
  unfold processLine at h
  split at h
  · exact absurd h (by simp)
  · split at h
    · exact absurd h (by simp)
    · split at h
      · split at h
        · exact absurd h (by simp)
        · exact absurd h (by simp)
      · split at h
        · exact absurd h (by simp)
        · rename_i hne
          simp only [LineResult.usage.injEq] at h
          subst h
          exact ⟨rfl, by simpa using hne⟩

/-- Every bare include recorded by the scan comes from a line of the file,
carrying that line's number and raw text. -/
theorem scanFile_bare_mem {lines : List Line} {b : BareInclude}
    (h : b ∈ (scanFile lines).bare) :
    ∃ l, l ∈ lines ∧ b.number = l.number ∧ b.text = l.text ∧
      processLine l.text = .bare b.header := by
  induction lines with
  | nil => simp [scanFile] at h
  | cons l rest ih =>
    rw [scanFile] at h
    cases hpl : processLine l.text with
    | ignored =>
      rw [hpl] at h
      obtain ⟨l', hl', hprops⟩ := ih h
      exact ⟨l', List.mem_cons_of_mem _ hl', hprops⟩
    | bare d =>
      rw [hpl] at h
      simp only [List.mem_cons] at h
      cases h with
      | inl heq =>
        subst heq
        exact ⟨l, List.mem_cons_self _ _, rfl, rfl, hpl⟩
      | inr hmem =>
        obtain ⟨l', hl', hprops⟩ := ih hmem
        exact ⟨l', List.mem_cons_of_mem _ hl', hprops⟩
    | annotated syms =>
      rw [hpl] at h
      obtain ⟨l', hl', hprops⟩ := ih h
      exact ⟨l', List.mem_cons_of_mem _ hl', hprops⟩
    | usage syms =>
      rw [hpl] at h
      obtain ⟨l', hl', hprops⟩ := ih h
      exact ⟨l', List.mem_cons_of_mem _ hl', hprops⟩

/-- Every annotated include recorded by the scan comes from a line of the
file, carrying that line's number, raw text, and scanned symbols. -/
theorem scanFile_annotated_mem {lines : List Line}
    {a : IncludeWithUnusedFunctions} (h : a ∈ (scanFile lines).annotated) :
    ∃ l, l ∈ lines ∧ a.number = l.number ∧ a.text = l.text ∧
      processLine l.text = .annotated a.unused_functions := by
  induction lines with
  | nil => simp [scanFile] at h
  | cons l rest ih =>
    rw [scanFile] at h
    cases hpl : processLine l.text with
    | ignored =>
      rw [hpl] at h
      obtain ⟨l', hl', hprops⟩ := ih h
      exact ⟨l', List.mem_cons_of_mem _ hl', hprops⟩
    | bare d =>
      rw [hpl] at h
      obtain ⟨l', hl', hprops⟩ := ih h
      exact ⟨l', List.mem_cons_of_mem _ hl', hprops⟩
    | annotated syms =>
      rw [hpl] at h
      simp only [List.mem_cons] at h
      cases h with
      | inl heq =>
        subst heq
        exact ⟨l, List.mem_cons_self _ _, rfl, rfl, hpl⟩
      | inr hmem =>
        obtain ⟨l', hl', hprops⟩ := ih hmem
        exact ⟨l', List.mem_cons_of_mem _ hl', hprops⟩
    | usage syms =>
      rw [hpl] at h
      obtain ⟨l', hl', hprops⟩ := ih h
      exact ⟨l', List.mem_cons_of_mem _ hl', hprops⟩

/-- Every usage occurrence recorded by the scan comes from a line of the
file, carrying that line's number and raw text, an empty link, and a symbol
among the ones scanned on that line. -/
theorem scanFile_usages_mem {lines : List Line} {u : UnlistedFunction}
    (h : u ∈ (scanFile lines).usages) :
    ∃ l, l ∈ lines ∧ u.number = l.number ∧ u.text = l.text ∧ u.link = [] ∧
      ∃ syms, processLine l.text = .usage syms ∧ u.function ∈ syms := by
  induction lines with
  | nil => simp [scanFile] at h
  | cons l rest ih =>
    rw [scanFile] at h
    cases hpl : processLine l.text with
    | ignored =>
      rw [hpl] at h
      obtain ⟨l', hl', hprops⟩ := ih h
      exact ⟨l', List.mem_cons_of_mem _ hl', hprops⟩
    | bare d =>
      rw [hpl] at h
      obtain ⟨l', hl', hprops⟩ := ih h
      exact ⟨l', List.mem_cons_of_mem _ hl', hprops⟩
    | annotated syms =>
      rw [hpl] at h
      obtain ⟨l', hl', hprops⟩ := ih h
      exact ⟨l', List.mem_cons_of_mem _ hl', hprops⟩
    | usage syms =>
      rw [hpl] at h
      simp only [List.mem_append, List.mem_map] at h
      cases h with
      | inl hnew =>
        obtain ⟨f, hf, heq⟩ := hnew
        subst heq
        exact ⟨l, List.mem_cons_self _ _, rfl, rfl, rfl, syms, hpl, hf⟩
      | inr hmem =>
        obtain ⟨l', hl', hprops⟩ := ih hmem
        exact ⟨l', List.mem_cons_of_mem _ hl', hprops⟩

/-- A list whose entries are all one value is weakly ascending. -/
theorem pairwise_le_of_eq {l : List Nat} (n : Nat) (h : ∀ x ∈ l, x = n) :
    l.Pairwise (· ≤ ·) := by
  induction l with
  | nil => simp
  | cons a rest ih =>
    refine List.Pairwise.cons ?_ (ih fun x hx => h x (List.mem_cons_of_mem _ hx))
    intro m hm
    rw [h a (List.mem_cons_self _ _), h m (List.mem_cons_of_mem _ hm)]

/-- Bare includes are recorded in ascending line order when the input lines
are in ascending order. -/
theorem scanFile_bare_pairwise {lines : List Line}
    (h : (lines.map Line.number).Pairwise (· ≤ ·)) :
    ((scanFile lines).bare.map BareInclude.number).Pairwise (· ≤ ·) := by
  induction lines with
  | nil => simp [scanFile]
  | cons l rest ih =>
    simp only [List.map_cons, List.pairwise_cons] at h
    obtain ⟨hhead, htail⟩ := h
    rw [scanFile]
    cases hpl : processLine l.text with
    | ignored => exact ih htail
    | bare d =>
      simp only [List.map_cons]
      refine List.Pairwise.cons ?_ (ih htail)
      intro m hm
      obtain ⟨b, hb, hnum⟩ := List.mem_map.mp hm
      obtain ⟨l', hl', hbn, _, _⟩ := scanFile_bare_mem hb
      subst hnum
      rw [hbn]
      exact hhead l'.number (List.mem_map.mpr ⟨l', hl', rfl⟩)
    | annotated syms => exact ih htail
    | usage syms => exact ih htail

/-- Annotated includes are recorded in ascending line order when the input
lines are in ascending order. -/
theorem scanFile_annotated_pairwise {lines : List Line}
    (h : (lines.map Line.number).Pairwise (· ≤ ·)) :
    ((scanFile lines).annotated.map
      IncludeWithUnusedFunctions.number).Pairwise (· ≤ ·) := by
  induction lines with
  | nil => simp [scanFile]
  | cons l rest ih =>
    simp only [List.map_cons, List.pairwise_cons] at h
    obtain ⟨hhead, htail⟩ := h
    rw [scanFile]
    cases hpl : processLine l.text with
    | ignored => exact ih htail
    | bare d => exact ih htail
    | annotated syms =>
      simp only [List.map_cons]
      refine List.Pairwise.cons ?_ (ih htail)
      intro m hm
      obtain ⟨a, ha, hnum⟩ := List.mem_map.mp hm
      obtain ⟨l', hl', han, _, _⟩ := scanFile_annotated_mem ha
      subst hnum
      rw [han]
      exact hhead l'.number (List.mem_map.mpr ⟨l', hl', rfl⟩)
    | usage syms => exact ih htail

/-- Usage occurrences are recorded in ascending line order when the input
lines are in ascending order. -/
theorem scanFile_usages_pairwise {lines : List Line}
    (h : (lines.map Line.number).Pairwise (· ≤ ·)) :
    ((scanFile lines).usages.map UnlistedFunction.number).Pairwise (· ≤ ·) := by
  induction lines with
  | nil => simp [scanFile]
  | cons l rest ih =>
    simp only [List.map_cons, List.pairwise_cons] at h
    obtain ⟨hhead, htail⟩ := h
    rw [scanFile]
    cases hpl : processLine l.text with
    | ignored => exact ih htail
    | bare d => exact ih htail
    | annotated syms => exact ih htail
    | usage syms =>
      simp only [List.map_append]
      rw [List.pairwise_append]
      refine ⟨?_, ih htail, ?_⟩
      · refine pairwise_le_of_eq l.number ?_
        intro x hx
        simp only [List.map_map, List.mem_map, Function.comp] at hx
        obtain ⟨f, _, hxeq⟩ := hx
        exact hxeq.symm
      · intro x hx y hy
        simp only [List.map_map, List.mem_map, Function.comp] at hx
        obtain ⟨f, _, hxeq⟩ := hx
        obtain ⟨u, hu, hyeq⟩ := List.mem_map.mp hy
        obtain ⟨l', hl', hun, _, _⟩ := scanFile_usages_mem hu
        subst hyeq
        rw [← hxeq, hun]
        exact hhead l'.number (List.mem_map.mpr ⟨l', hl', rfl⟩)

/-- Mapping a number projection over a filterMap whose function preserves the
number yields a sublist of the numbers of the input. -/
theorem filterMap_map_sublist {α β γ : Type} (f : α → Option β) (na : α → γ)
    (nb : β → γ) (l : List α) (h : ∀ a b, f a = some b → nb b = na a) :
    List.Sublist ((l.filterMap f).map nb) (l.map na) := by
  induction l with
  | nil => simp
  | cons a rest ih =>
    cases hfa : f a with
    | none =>
      simp only [List.filterMap_cons, hfa, List.map_cons]
      exact ih.cons _
    | some b =>
      simp only [List.filterMap_cons, hfa, List.map_cons, h a b hfa]
      exact ih.cons₂ _

/-- A filterMap that drops an element exactly when a test on its image holds
is the same as mapping and then filtering by the complement of the test. -/
theorem filterMap_if_eq_filter_map {α β : Type} (g : α → β) (p : β → Bool)
    (l : List α) :
    (l.filterMap fun a => if p (g a) then none else some (g a)) =
      (l.map g).filter fun b => !p b := by
  induction l with
  | nil => simp
  | cons a rest ih =>
    cases hp : p (g a) with
    | true => simp [List.filterMap_cons, List.filter_cons, hp, ih]
    | false => simp [List.filterMap_cons, List.filter_cons, hp, ih]

/-- Left fold with append accumulation concatenates the per-element pieces. -/
theorem foldl_append_flatMap {α β : Type} (enc : α → List β) :
    ∀ (l : List α) (acc : List β),
      (l.foldl (fun a c => a ++ enc c) acc) = acc ++ l.flatMap enc := by
  intro l
  induction l with
  | nil => simp
  | cons a rest ih =>
    intro acc
    simp only [List.foldl_cons, List.flatMap_cons, ih, List.append_assoc]

/-- Counting under-listed findings for one symbol: the filterMap of the
under-listed pass keeps exactly the occurrences of symbols outside the
listed set, one finding per occurrence. -/
theorem countP_filterMap_under (L : List Str) (lk : Str → Str) (s : Str)
    (hs : s ∉ L) :
    ∀ us : List UnlistedFunction,
      ((us.filterMap fun u => if u.function ∈ L then none
          else some (⟨u.number, u.text, u.function, lk u.function⟩ :
            UnlistedFunction)).countP
        fun f => decide (f.function = s)) =
      us.countP fun u => decide (u.function = s) := by
  intro us
  induction us with
  | nil => simp
  | cons u rest ih =>
    by_cases hmem : u.function ∈ L
    · have hne : decide (u.function = s) = false := by
        simp only [decide_eq_false_iff_not]
        intro h
        exact hs (h ▸ hmem)
      simp [List.filterMap_cons, if_pos hmem, List.countP_cons, hne, ih]
    · simp [List.filterMap_cons, if_neg hmem, List.countP_cons, ih]

/-! ### Claim theorems -/

/-- Claim C8: the reference-link builder is total and deterministic, and for
every symbol string it returns the fixed base URL, followed by the input with
exactly the characters of the fixed encoding table replaced by their literal
percent sequences and all other characters passed through unchanged, followed
by the fixed suffix.  Totality and determinism hold by construction (the
embedded function is a pure function of its argument, as is the source
function, whose only non-local data are immutable statics); the equation
identifies the source's stream-insertion loop with the specification's
per-character description. -/
theorem reference_link_builder_spec (name : Str) :
    create_cpp_reference_link name = reference_link_spec name := by
  unfold create_cpp_reference_link reference_link_spec
  have hfn : (fun (acc : Str) (c : Char) =>
      match url_encoding c with
      | some enc => acc ++ enc
      | none => acc ++ [c]) =
      fun (acc : Str) (c : Char) => acc ++ ((url_encoding c).getD [c]) := by
    funext acc c
    cases h : url_encoding c <;> simp [h]
  rw [hfn, foldl_append_flatMap]

/-- Claim C1: the over-listed pass emits, for each annotated inclusion in
original order, exactly the subsequence of its listed symbols that do not
occur as a usage anywhere in the file, emits a finding only when that
subsequence is non-empty, and a symbol used anywhere in the file is absent
from every finding's unlisted subsequence. -/
theorem over_listed_pass_correct (content : List Str) :
    (codeParser content).unused_functions =
      ((annotatedOf content).map fun inc =>
        (⟨inc.number, inc.text, inc.unused_functions.filter fun s =>
            decide (s ∉ usedSetOf content)⟩ :
          IncludeWithUnusedFunctions)).filter
        (fun f => !f.unused_functions.isEmpty)
    ∧ (∀ f ∈ (codeParser content).unused_functions,
        ∃ inc, inc ∈ annotatedOf content ∧ f.number = inc.number ∧
          f.text = inc.text ∧
          List.Sublist f.unused_functions inc.unused_functions ∧
          f.unused_functions ≠ [])
    ∧ ∀ f ∈ (codeParser content).unused_functions,
        ∀ s ∈ usedSetOf content, s ∉ f.unused_functions := by
  refine ⟨?_, ?_, ?_⟩
  · exact filterMap_if_eq_filter_map
      (fun inc => (⟨inc.number, inc.text,
        inc.unused_functions.filter fun s =>
          decide (s ∉ usedSetOf content)⟩ : IncludeWithUnusedFunctions))
      (fun b => b.unused_functions.isEmpty) (annotatedOf content)
  · intro f hf
    obtain ⟨inc, hinc, heq⟩ := List.mem_filterMap.mp hf
    split at heq
    · exact absurd heq (by simp)
    · rename_i hne
      simp only [Option.some.injEq] at heq
      subst heq
      refine ⟨inc, hinc, rfl, rfl, List.filter_sublist _, by simpa using hne⟩
  · intro f hf s hs hmem
    obtain ⟨inc, hinc, heq⟩ := List.mem_filterMap.mp hf
    split at heq
    · exact absurd heq (by simp)
    · simp only [Option.some.injEq] at heq
      subst heq
      simp only [List.mem_filter, decide_eq_true_eq] at hmem
      exact hmem.2 hs

/-- Witness for claim C1 at a concrete file: the symbol used on line 2 is
absent from the unlisted subsequence of the finding on line 1. -/
theorem over_listed_pass_correct_witness :
    "std::sort".toList ∉ c1_finding.unused_functions :=
  (over_listed_pass_correct c1_file).2.2 c1_finding (by decide)
    ("std::sort".toList) (by decide)

/-- Claim C2: every usage occurrence whose symbol is listed in some
inclusion's comment produces no under-listed finding; every occurrence of a
symbol listed nowhere produces exactly one finding, repeated occurrences
never deduplicated; and every finding carries the freshly computed reference
link of its symbol. -/
theorem under_listed_pass_correct (content : List Str) :
    (∀ s ∈ listedSetOf content,
      ((codeParser content).unlisted_functions.countP
        fun f => decide (f.function = s)) = 0)
    ∧ (∀ s, s ∉ listedSetOf content →
      ((codeParser content).unlisted_functions.countP
        fun f => decide (f.function = s)) =
      ((usagesOf content).countP fun u => decide (u.function = s)))
    ∧ ∀ f ∈ (codeParser content).unlisted_functions,
        f.link = create_cpp_reference_link f.function ∧
        f.function ∉ listedSetOf content := by
  refine ⟨?_, ?_, ?_⟩
  · intro s hs
    rw [List.countP_eq_zero]
    intro f hf
    obtain ⟨u, hu, heq⟩ := List.mem_filterMap.mp hf
    split at heq
    · exact absurd heq (by simp)
    · rename_i hnot
      simp only [Option.some.injEq] at heq
      subst heq
      simp only [decide_eq_true_eq]
      intro h
      exact hnot (h ▸ hs)
  · intro s hs
    exact countP_filterMap_under (listedSetOf content)
      create_cpp_reference_link s hs (usagesOf content)
  · intro f hf
    obtain ⟨u, hu, heq⟩ := List.mem_filterMap.mp hf
    split at heq
    · exact absurd heq (by simp)
    · rename_i hnot
      simp only [Option.some.injEq] at heq
      subst heq
      exact ⟨rfl, hnot⟩

/-- Witness for claim C2 at a concrete file: two occurrences of one unlisted
symbol yield exactly two findings. -/
theorem under_listed_pass_correct_witness :
    ((codeParser c2_file).unlisted_functions.countP
      fun f => decide (f.function = "std::cout".toList)) = 2 :=
  ((under_listed_pass_correct c2_file).2.1 ("std::cout".toList)
    (by decide)).trans (by decide)

/-- Claim C5: each of the three public result sequences is emitted in
ascending line-number order matching a single forward scan, and every public
finding carries the original, unmodified line text and line number: its
number-text pair is literally one of the numbered input lines. -/
theorem findings_ordered_and_traceable (content : List Str) :
    (((codeParser content).bare_includes.map
        BareInclude.number).Pairwise (· ≤ ·)
     ∧ ((codeParser content).unused_functions.map
          IncludeWithUnusedFunctions.number).Pairwise (· ≤ ·)
     ∧ ((codeParser content).unlisted_functions.map
          UnlistedFunction.number).Pairwise (· ≤ ·))
    ∧ (∀ f ∈ (codeParser content).bare_includes,
         (⟨f.number, f.text⟩ : Line) ∈ numberLines 1 content)
    ∧ (∀ f ∈ (codeParser content).unused_functions,
         (⟨f.number, f.text⟩ : Line) ∈ numberLines 1 content)
    ∧ ∀ f ∈ (codeParser content).unlisted_functions,
         (⟨f.number, f.text⟩ : Line) ∈ numberLines 1 content := by
  have hlines := numberLines_pairwise 1 content
  refine ⟨⟨?_, ?_, ?_⟩, ?_, ?_, ?_⟩
  · exact scanFile_bare_pairwise hlines
  · refine List.Pairwise.sublist ?_ (scanFile_annotated_pairwise hlines)
    refine filterMap_map_sublist _ IncludeWithUnusedFunctions.number
      IncludeWithUnusedFunctions.number _ ?_
    intro a b hab
    split at hab
    · exact absurd hab (by simp)
    · simp only [Option.some.injEq] at hab
      subst hab
      rfl
  · refine List.Pairwise.sublist ?_ (scanFile_usages_pairwise hlines)
    refine filterMap_map_sublist _ UnlistedFunction.number
      UnlistedFunction.number _ ?_
    intro a b hab
    split at hab
    · exact absurd hab (by simp)
    · simp only [Option.some.injEq] at hab
      subst hab
      rfl
  · intro f hf
    obtain ⟨l, hl, hn, ht, _⟩ := scanFile_bare_mem hf
    rw [hn, ht]
    exact hl
  · intro f hf
    obtain ⟨inc, hinc, heq⟩ := List.mem_filterMap.mp hf
    split at heq
    · exact absurd heq (by simp)
    · simp only [Option.some.injEq] at heq
      subst heq
      obtain ⟨l, hl, hn, ht, _⟩ := scanFile_annotated_mem hinc
      show (⟨inc.number, inc.text⟩ : Line) ∈ numberLines 1 content
      rw [hn, ht]
      exact hl
  · intro f hf
    obtain ⟨u, hu, heq⟩ := List.mem_filterMap.mp hf
    split at heq
    · exact absurd heq (by simp)
    · simp only [Option.some.injEq] at heq
      subst heq
      obtain ⟨l, hl, hn, ht, _, _⟩ := scanFile_usages_mem hu
      show (⟨u.number, u.text⟩ : Line) ∈ numberLines 1 content
      rw [hn, ht]
      exact hl

/-- Witness for claim C5 at a concrete file: the over-listed finding on
line 2 carries exactly the original second input line. -/
theorem findings_ordered_and_traceable_witness :
    (⟨c5_finding.number, c5_finding.text⟩ : Line) ∈ numberLines 1 c5_file :=
  (findings_ordered_and_traceable c5_file).2.2.1 c5_finding (by decide)

/-- Claim C9: every symbol stored in a public finding (a listed symbol of an
over-listed finding or the symbol of an under-listed finding) is the
lowercase std qualifier followed by one or more word characters and contains
no further double colon; in particular a nested qualified reference is
truncated to its first component. -/
theorem finding_symbols_shape (content : List Str) :
    (∀ f ∈ (codeParser content).unlisted_functions, symShape f.function)
    ∧ (∀ g ∈ (codeParser content).unused_functions,
        ∀ s ∈ g.unused_functions, symShape s)
    ∧ scanStd "std::chrono::seconds".toList = ["std::chrono".toList] := by
  refine ⟨?_, ?_, by decide⟩
  · intro f hf
    obtain ⟨u, hu, heq⟩ := List.mem_filterMap.mp hf
    split at heq
    · exact absurd heq (by simp)
    · simp only [Option.some.injEq] at heq
      subst heq
      obtain ⟨l, hl, _, _, _, syms, hpl, hmem⟩ := scanFile_usages_mem hu
      obtain ⟨hsyms, _⟩ := processLine_usage_inv hpl
      subst hsyms
      exact scanStd_shape _ _ hmem
  · intro g hg s hsmem
    obtain ⟨inc, hinc, heq⟩ := List.mem_filterMap.mp hg
    split at heq
    · exact absurd heq (by simp)
    · simp only [Option.some.injEq] at heq
      subst heq
      have hs' : s ∈ inc.unused_functions := List.mem_of_mem_filter hsmem
      obtain ⟨l, hl, _, _, hpl⟩ := scanFile_annotated_mem hinc
      obtain ⟨hsyms, _⟩ := processLine_annotated_inv hpl
      rw [hsyms] at hs'
      exact scanStd_shape _ _ hs'

/-- Witness for claim C9 at a concrete file: the finding produced for a
nested qualified reference stores the truncated qualifier-plus-one-component
symbol. -/
theorem finding_symbols_shape_witness :
    c9_finding.function.take 5 = "std::".toList ∧
      5 < c9_finding.function.length :=
  ⟨((finding_symbols_shape c9_file).1 c9_finding (by decide)).1,
   ((finding_symbols_shape c9_file).1 c9_finding (by decide)).2.1⟩

/-- Claim C10: a non-empty line consisting only of whitespace is classified
as contributing nothing: trimming yields the empty string, the comment test,
directive search, inline-comment stripping and symbol scan all return their
empty-string values (classification is total in the embedding, as in the
source, where the substring tests and regular-expression searches are
well-defined on the empty string), the line is classified Ignored, and it
contributes nothing to the three containers of the scan. -/
theorem whitespace_only_line_ignored (raw : Str) (h0 : raw ≠ [])
    (hsp : ∀ c ∈ raw, isSpaceChar c = true) :
    strip_whitespace raw = [] ∧ processLine raw = .ignored ∧
      begins_with_comment [] = false ∧ matchDirective [] = none ∧
      remove_comment [] = [] ∧ scanStd [] = [] ∧
      ∀ (n : Nat) (rest : List Line),
        scanFile (⟨n, raw⟩ :: rest) = scanFile rest := by
  have hstrip : strip_whitespace raw = [] := by
    unfold strip_whitespace
    have hd : raw.dropWhile isSpaceChar = [] := by
      rw [List.dropWhile_eq_nil_iff]
      intro a ha
      exact hsp a ha
    rw [hd]
    simp
  have hE : raw.isEmpty = false := by
    cases raw with
    | nil => exact absurd rfl h0
    | cons a l => rfl
  have hproc : processLine raw = .ignored := by
    unfold processLine
    rw [hstrip, if_neg (by simp [hE])]
    decide
  refine ⟨hstrip, hproc, by decide, by decide, by decide, by decide, ?_⟩
  intro n rest
  rw [scanFile]
  simp only [hproc]

/-- Witness for claim C10 at a concrete all-whitespace line. -/
theorem whitespace_only_line_ignored_witness :
    processLine c10_raw = LineResult.ignored ∧
      scanFile (⟨7, c10_raw⟩ :: []) = scanFile [] :=
  ⟨(whitespace_only_line_ignored c10_raw (by decide) (by decide)).2.1,
   (whitespace_only_line_ignored c10_raw (by decide)
     (by decide)).2.2.2.2.2.2 7 []⟩

/-- A pattern begins every string that extends it. -/
theorem begins_with_append_self : ∀ (p t : Str), begins_with p (p ++ t) = true := by
  intro p
  induction p with
  | nil => intro t; rfl
  | cons a ps ih =>
    intro t
    simp only [List.cons_append, begins_with, Bool.and_eq_true, beq_iff_eq]
    simpa using ih t

/-- Dropping while a predicate holds skips a block on which it always
holds. -/
theorem dropWhile_append_all {p : Char → Bool} :
    ∀ {w : Str} (t : Str), (∀ x ∈ w, p x = true) →
      (w ++ t).dropWhile p = t.dropWhile p := by
  intro w
  induction w with
  | nil => intro t _; rfl
  | cons a ws ih =>
    intro t hall
    simp only [List.cons_append, List.dropWhile_cons,
      hall a (List.mem_cons_self _ _), if_true]
    exact ih t fun x hx => hall x (List.mem_cons_of_mem _ hx)

/-- Dropping whitespace from a block of whitespace followed by the include
keyword exposes the keyword. -/
theorem dropWhile_space_include (W Y : Str)
    (hW : ∀ x ∈ W, isSpaceChar x = true) :
    (W ++ "#include".toList ++ Y).dropWhile isSpaceChar =
      "#include".toList ++ Y := by
  rw [List.append_assoc, dropWhile_append_all ("#include".toList ++ Y) hW]
  have h8 : ("#include".toList : Str) = '#' :: "include".toList := by decide
  rw [h8, List.cons_append, List.dropWhile_cons]
  simp [show isSpaceChar '#' = false from by decide]

/-- A string equal to a concatenation splits at the length of the first
part. -/
theorem append_drop_self {s d t : Str} (h : s = d ++ t) :
    s = d ++ s.drop d.length := by
  rw [h, List.drop_left]

/-- Claim C7: the file-analysis facade fails with an error when the input
path cannot be read (the modelled file system maps a path to no content
exactly when the path is missing, a directory, or unopenable), propagates
the loader's error to the caller unchanged and returns no partial result
alongside it; on a successfully loaded file it returns the full analysis
of the content, classification and reconciliation being total functions. -/
theorem facade_error_propagation (fs : FileSystem) (p : Str) :
    (fs.lookup p = none →
      codeParserOf fs p = Except.error ("Error loading file ".toList ++ p ++
        ": Failed to open file for reading".toList) ∧
      read_lines fs p = Except.error ("Error loading file ".toList ++ p ++
        ": Failed to open file for reading".toList))
    ∧ (∀ e, read_lines fs p = Except.error e →
        codeParserOf fs p = Except.error e)
    ∧ ∀ content, fs.lookup p = some content →
        codeParserOf fs p = Except.ok (codeParser content) ∧
        read_lines fs p = Except.ok (numberLines 1 content) := by
  refine ⟨?_, ?_, ?_⟩
  · intro h
    unfold codeParserOf read_lines
    rw [h]
    exact ⟨rfl, rfl⟩
  · intro e he
    unfold read_lines at he
    unfold codeParserOf
    cases hl : fs.lookup p with
    | none =>
      rw [hl] at he
      simp only [Except.error.injEq] at he
      rw [← he]
    | some content =>
      rw [hl] at he
      exact absurd he (by simp)
  · intro content h
    unfold codeParserOf read_lines
    rw [h]
    exact ⟨rfl, rfl⟩

/-- Witness for claim C7 at a concrete file system: the missing path yields
the loader's error and the present path yields the full analysis. -/
theorem facade_error_propagation_witness :
    codeParserOf c7_fs c7_missing =
      Except.error ("Error loading file ".toList ++ c7_missing ++
        ": Failed to open file for reading".toList) ∧
    codeParserOf c7_fs c7_good = Except.ok (codeParser c7_content) :=
  ⟨((facade_error_propagation c7_fs c7_missing).1 (by decide)).1,
   ((facade_error_propagation c7_fs c7_good).2.2 c7_content (by decide)).1⟩

/-- Claim C6 evaluation: with multithreading disabled and two files queued,
the driver takes the sequential branch; the first path being unreadable, the
whole batch evaluates to that single error, although the second path is
readable and analyzable on its own — the remaining analyses are abandoned
and no per-file outcome for the second file is collected. -/
theorem sequential_driver_aborts_on_first_error :
    takesSequentialBranch c6_args = true
    ∧ process_all_sequential c6_fs c6_args.filepaths =
        Except.error ("Error loading file ".toList ++ c6_missing ++
          ": Failed to open file for reading".toList)
    ∧ codeParserOf c6_fs c6_good = Except.ok (codeParser c6_content) :=
  ⟨rfl, rfl, rfl⟩

/-- Claim C4 counterexample: a line in which a directive-like fragment
follows other code text is not treated as a directive line — the directive
pattern finds no match (the leading start-of-input anchor restricts the
search to position zero) and the line is classified as ignored, although the
embedded fragment on its own is a perfectly valid directive. -/
theorem directive_after_code_not_matched :
    matchDirective c4_line = none
    ∧ processLine c4_line = LineResult.ignored
    ∧ c4_line = "int x; ".toList ++ c4_frag
    ∧ matchDirective c4_frag = some c4_frag :=
  ⟨by decide, by decide, by decide, by decide⟩

/-- Claim C4 as amended: every match of the inclusion-directive pattern is
anchored at the start of the processed text — the matched substring is a
prefix of the text, and dropping its leading whitespace exposes the include
keyword immediately.  What regex-search semantics do permit is trailing text
after the matched directive, not code text before it. -/
theorem directive_pattern_anchored (s d : Str)
    (h : matchDirective s = some d) :
    s = d ++ s.drop d.length ∧
      begins_with "#include".toList (d.dropWhile isSpaceChar) = true := by
  unfold matchDirective at h
  split at h
  case isFalse => exact absurd h (by simp)
  case isTrue hpre =>
    split at h
    case h_1 heq => exact absurd h (by simp)
    case h_2 c rest heq =>
      split at h
      case isFalse => exact absurd h (by simp)
      case isTrue hc =>
        split at h
        case h_2 heqJ => exact absurd h (by simp)
        case h_1 j heqJ =>
          split at h
          case isFalse => exact absurd h (by simp)
          case isTrue hj =>
            simp only [Option.some.injEq] at h
            subst h
            obtain ⟨t1, ht1⟩ := begins_with_exists hpre
            have h8 : ("#include".toList : Str).length = 8 := by decide
            have hdrop8 : (s.dropWhile isSpaceChar).drop 8 = t1 := by
              rw [ht1, ← h8, List.drop_left]
            have hW2 : ((s.dropWhile isSpaceChar).drop 8).takeWhile
                isSpaceChar = t1.takeWhile isSpaceChar := by rw [hdrop8]
            have heq' : t1.dropWhile isSpaceChar = c :: rest := by
              rw [← hdrop8]
              exact heq
            have hs1 : s = s.takeWhile isSpaceChar ++ s.dropWhile isSpaceChar :=
              (List.takeWhile_append_dropWhile _ _).symm
            have ht1split : t1 = t1.takeWhile isSpaceChar ++ (c :: rest) := by
              have hsplit := List.takeWhile_append_dropWhile isSpaceChar t1
              rw [heq'] at hsplit
              exact hsplit.symm
            have hrest : rest = rest.takeWhile (fun x => !isSpaceChar x) ++
                rest.dropWhile (fun x => !isSpaceChar x) :=
              (List.takeWhile_append_dropWhile _ _).symm
            have hrun : rest.takeWhile (fun x => !isSpaceChar x) =
                (rest.takeWhile (fun x => !isSpaceChar x)).take (j + 1) ++
                (rest.takeWhile (fun x => !isSpaceChar x)).drop (j + 1) :=
              (List.take_append_drop _ _).symm
            rw [hW2]
            have hS : s = (((s.takeWhile isSpaceChar ++ "#include".toList) ++
                t1.takeWhile isSpaceChar) ++
                (c :: (rest.takeWhile (fun x => !isSpaceChar x)).take (j + 1)))
                ++ ((rest.takeWhile (fun x => !isSpaceChar x)).drop (j + 1) ++
                  rest.dropWhile (fun x => !isSpaceChar x)) := by
              conv_lhs => rw [hs1, ht1, ht1split, hrest, hrun]
              simp only [List.append_assoc, List.cons_append]
            refine ⟨append_drop_self hS, ?_⟩
            rw [List.append_assoc]
            rw [dropWhile_space_include _ _
              (fun x hx => List.mem_takeWhile_imp hx)]
            exact begins_with_append_self _ _

/-- Witness for the amended claim C4 at a concrete line: the matched
directive is an anchored prefix, and trailing code text after it did not
prevent the match. -/
theorem directive_pattern_anchored_witness :
    c4_s = c4_d ++ c4_s.drop c4_d.length ∧
      begins_with "#include".toList (c4_d.dropWhile isSpaceChar) = true :=
  directive_pattern_anchored c4_s c4_d (by decide)

/-- The three comment-line conditions of the specification each make
begins_with_comment true. -/
theorem begins_with_comment_of {line : Str}
    (h : begins_with "//".toList line = true ∨
      begins_with "/*".toList line = true ∨ line.head? = some '*') :
    begins_with_comment line = true := by
  unfold begins_with_comment
  simp only [Bool.or_eq_true]
  rcases h with h | h | h
  · exact Or.inl (Or.inl h)
  · exact Or.inl (Or.inr h)
  · right
    cases line with
    | nil => simp at h
    | cons c cs =>
      simp only [List.head?_cons, Option.some.injEq] at h
      subst h
      rfl

/-- Claim C3: an empty raw line is classified Ignored (in the source this
happens before any normalization); a trimmed, lowercased line starting with
two slashes or slash-star, or whose first character is a star, is classified
Ignored and contributes no findings; on a line with no inclusion directive,
everything from the first occurrence of two slashes onward is stripped
before symbol scanning — the scanned text is the part of the processed line
strictly before its first two-slash occurrence, so a trailing comment
contributes zero symbol usages — while on a directive line this stripping
is skipped and the full processed line is scanned. -/
theorem line_classifier_comment_handling (raw : Str) :
    (raw = [] → processLine raw = .ignored)
    ∧ ((begins_with "//".toList (to_lower (strip_whitespace raw)) = true ∨
        begins_with "/*".toList (to_lower (strip_whitespace raw)) = true ∨
        (to_lower (strip_whitespace raw)).head? = some '*') →
       processLine raw = .ignored)
    ∧ (raw ≠ [] →
       begins_with_comment (to_lower (strip_whitespace raw)) = false →
       matchDirective (to_lower (strip_whitespace raw)) = none →
       (∀ x b, remove_comment (to_lower (strip_whitespace raw)) ≠
           x ++ '/' :: '/' :: b) ∧
       (∃ t, to_lower (strip_whitespace raw) =
           remove_comment (to_lower (strip_whitespace raw)) ++ t ∧
           (t = [] ∨ ∃ b, t = '/' :: '/' :: b)) ∧
       processLine raw =
         (if (scanStd (remove_comment
              (to_lower (strip_whitespace raw)))).isEmpty
          then LineResult.ignored
          else LineResult.usage
            (scanStd (remove_comment (to_lower (strip_whitespace raw))))))
    ∧ (raw ≠ [] →
       begins_with_comment (to_lower (strip_whitespace raw)) = false →
       ∀ d, matchDirective (to_lower (strip_whitespace raw)) = some d →
       processLine raw =
         (if (scanStd (to_lower (strip_whitespace raw))).isEmpty
          then LineResult.bare d
          else LineResult.annotated
            (scanStd (to_lower (strip_whitespace raw))))) := by
  refine ⟨?_, ?_, ?_, ?_⟩
  · intro h
    subst h
    rfl
  · intro h
    have hb := begins_with_comment_of h
    unfold processLine
    by_cases hE : raw.isEmpty = true
    · rw [if_pos hE]
    · rw [if_neg hE, if_pos hb]
  · intro h0 hB hD
    refine ⟨remove_comment_no_comment _, remove_comment_decomp _, ?_⟩
    have hE : raw.isEmpty = false := by
      cases raw with
      | nil => exact absurd rfl h0
      | cons a l => rfl
    unfold processLine
    rw [if_neg (by simp [hE]), if_neg (by simp [hB]), hD]
  · intro h0 hB d hD
    have hE : raw.isEmpty = false := by
      cases raw with
      | nil => exact absurd rfl h0
      | cons a l => rfl
    unfold processLine
    rw [if_neg (by simp [hE]), if_neg (by simp [hB]), hD]

/-- Witness for claim C3 at a concrete directive line: classification scans
the full processed line, so the symbol named after the directive's comment
marker is collected rather than stripped. -/
theorem line_classifier_comment_handling_witness :
    processLine c3_raw = LineResult.annotated ["std::cout".toList] := by
  have h := (line_classifier_comment_handling c3_raw).2.2.2 (by decide)
    (by decide) ("#include <iostream>".toList) (by decide)
  rw [h]
  decide
